import Mathlib

/-!
Verification development for the discrete-bottleneck VAE in
langCoder/VAE_lang_gru.py.  Tensors are embedded as (nested) lists of real
numbers; batch-parallel torch operations become maps and zipWiths over the
batch axis.  External collaborators (the torch GRU cell, the gumbel softmax
sampler and the gaussian noise source) are taken as function parameters; the
straight-through discretizer, which lives in the base_model module of the
repository (not present under src), is modelled from the spec.
-/

namespace VAELang

/-- Dot product of two real vectors (rows). -/
noncomputable def dot (a b : List ℝ) : ℝ := (List.zipWith (fun x y => x * y) a b).sum

/-- Parameters of a torch.nn.Linear layer: a weight matrix (list of rows) and a bias vector. -/
structure Linear where
  weight : List (List ℝ)
  bias : List ℝ

/-- Application of a linear layer: output i is the dot product of row i with the input, plus bias i. -/
noncomputable def linApply (L : Linear) (v : List ℝ) : List ℝ :=
  List.zipWith (fun row b => dot row v + b) L.weight L.bias

/-- Embedding of torch.softmax along the last axis, on one row. -/
noncomputable def softmax (v : List ℝ) : List ℝ :=
  v.map (fun x => Real.exp x / (v.map Real.exp).sum)

/-- Normalized log-probabilities that torch.distributions computes from a logits
vector: log softmax along the last axis, on one row. -/
noncomputable def logSoftmax (v : List ℝ) : List ℝ :=
  v.map (fun x => x - Real.log ((v.map Real.exp).sum))

/-- KL divergence between two torch OneHotCategorical distributions given by
logits vectors a and b, as torch.distributions.kl_divergence computes it:
the sum over the vocabulary axis of probs(a) * (logProbs(a) - logProbs(b)),
where probs is softmax and logProbs is log softmax of the logits. -/
noncomputable def klCatLogits (a b : List ℝ) : ℝ :=
  (List.zipWith (fun p t => p * t) (softmax a)
    (List.zipWith (fun x y => x - y) (logSoftmax a) (logSoftmax b))).sum

/-- Embedding of VAE.compute_KLD_loss: build a OneHotCategorical from the model
logits tensor, a prior OneHotCategorical whose logits are log(1/dictionary_size)
at every symbol broadcast over every step and batch element, take the KL
divergence per (batch, step), sum over the word axis and then over the batch
axis.  The parameter d is self.dictionary_size. -/
noncomputable def compute_KLD_loss (d : ℕ) (logits : List (List (List ℝ))) : ℝ :=
  (logits.map (fun seq =>
    (seq.map (fun step =>
      klCatLogits step (List.replicate d (Real.log (1 / (d : ℝ)))))).sum)).sum

/-- Uniform categorical probability vector over d symbols. -/
noncomputable def uniformProbs (d : ℕ) : List ℝ := List.replicate d (1 / (d : ℝ))

/-- Classical KL divergence between two probability vectors p and q:
sum of p i * log (p i / q i). -/
noncomputable def klDiv (p q : List ℝ) : ℝ :=
  (List.zipWith (fun pi qi => pi * Real.log (pi / qi)) p q).sum

/-- KL term as the claim words it: the relaxed distribution vectors taken
directly as categorical probabilities, each step compared with the uniform
categorical over d symbols, summed over the word axis and the batch axis. -/
noncomputable def specKLD (d : ℕ) (logits : List (List (List ℝ))) : ℝ :=
  (logits.map (fun seq => (seq.map (fun step => klDiv step (uniformProbs d))).sum)).sum

/-- Embedding of F.mse_loss(input, target, reduction=sum): the elementwise
squared difference summed over every element of the batch. -/
noncomputable def mseLossSum (input target : List (List ℝ)) : ℝ :=
  (List.zipWith (fun xr yr => (List.zipWith (fun x y => (x - y) ^ 2) xr yr).sum) input target).sum

/-- Embedding of F.binary_cross_entropy_with_logits(input, target, reduction=sum),
using the closed form max(x,0) - x*y + log(1 + exp(-abs x)) per element. -/
noncomputable def bceLossSum (input target : List (List ℝ)) : ℝ :=
  (List.zipWith (fun xr yr =>
    (List.zipWith (fun x y => max x 0 - x * y + Real.log (1 + Real.exp (-|x|))) xr yr).sum)
    input target).sum

/-- Embedding of VAE.compute_recontruct_loss: mse branch when the string
selector equals mse, otherwise the binary cross entropy branch; either sum is
divided by the batch size inputs.size(0). -/
noncomputable def compute_recontruct_loss (inputs recon : List (List ℝ)) (loss : String) : ℝ :=
  if loss = "mse" then mseLossSum recon inputs / (inputs.length : ℝ)
  else bceLossSum recon inputs / (inputs.length : ℝ)

/-- Embedding of VAE.elbo: reconstruction loss with the default mse selector,
KL loss, and the total recon + beta * kld, returned as a triple. -/
noncomputable def elbo (d : ℕ) (inputs recon : List (List ℝ))
    (logits : List (List (List ℝ))) (beta : ℝ) : ℝ × ℝ × ℝ :=
  (compute_recontruct_loss inputs recon "mse" + beta * compute_KLD_loss d logits,
   compute_recontruct_loss inputs recon "mse", compute_KLD_loss d logits)

/-- Reconstruction term as the claim words it: squared error between inputs and
reconstruction summed over the batch and feature axes, divided by batch size. -/
noncomputable def specReconLoss (inputs recon : List (List ℝ)) : ℝ :=
  (List.zipWith (fun ir rr => (List.zipWith (fun i r => (i - r) ^ 2) ir rr).sum) inputs recon).sum
    / (inputs.length : ℝ)

/-- First index of a maximal element of a real vector, as torch.argmax yields
on the last axis. -/
noncomputable def argmaxIdx (l : List ℝ) : ℕ :=
  (l.enum.foldl (fun best p => if best.2 < p.2 then p else best) (0, l.headD 0)).1

/-- One-hot vector of length n with a one at index i. -/
noncomputable def oneHot (n i : ℕ) : List ℝ :=
  (List.range n).map (fun j => if j = i then 1 else 0)

/-- Modelled from the spec: straight_through_discretize is defined in the
base_model module of the repository, which is not present under src.  Per the
external contract of the spec it returns the one-hot vector at the argmax of
the relaxed distribution together with that argmax index; the straight-through
gradient routing has no observable forward value and is not modelled. -/
noncomputable def straight_through_discretize (z : List ℝ) : List ℝ × ℕ :=
  (oneHot z.length (argmaxIdx z), argmaxIdx z)

/-- Parameters of the VAE module: the sizing attributes fixed at construction,
the temperature, the two GRU cells (taken as abstract recurrence functions
from (input, hidden) to the new hidden state, since torch.nn.GRUCell is an
external library component) and the four linear heads. -/
structure Params where
  input_size : ℕ
  word_length : ℕ
  dictionary_size : ℕ
  temperature : ℝ
  encoder_gru : List ℝ → List ℝ → List ℝ
  hidden_to_token : Linear
  token_to_hidden : Linear
  decoder_gru : List ℝ → List ℝ → List ℝ
  output_mean : Linear
  output_logvar : Linear

/-- Projection of a one-hot token back to hidden space, as computed at the end
of every encoder step (self.token_to_hidden applied to the one-hot sample). -/
noncomputable def encoderTokenFeedback (P : Params) : List ℝ → List ℝ :=
  linApply P.token_to_hidden

/-- Embedding head applied to every step of the token sequence at the start of
the decoder (self.token_to_hidden applied to the flattened sequence). -/
noncomputable def decoderTokenEmbed (P : Params) : List ℝ → List ℝ :=
  linApply P.token_to_hidden

/-- Model after an update replacing the token_to_hidden parameter set. -/
def setTokenToHidden (P : Params) (L : Linear) : Params :=
  { P with token_to_hidden := L }

/-- Loop body of VAE.Encoder, one recursion level per word position, operating
on the whole batch: advance the GRU cell, project hidden to vocabulary logits,
sample (gumbel softmax in training with sampling enabled, otherwise plain
softmax), discretize, and feed the projected one-hot back as the next input.
Returns the step-major lists of relaxed samples, one-hot tokens and words. -/
noncomputable def encoderLoop (P : Params) (gumbel_softmax : List ℝ → ℝ → List ℝ)
    (training sampling : Bool) :
    ℕ → List (List ℝ) → List (List ℝ) →
      List (List (List ℝ)) × List (List (List ℝ)) × List (List ℕ)
  | 0, _, _ => ([], [], [])
  | n + 1, ins, hxs =>
      let hxs2 := List.zipWith P.encoder_gru ins hxs
      let pre := hxs2.map (linApply P.hidden_to_token)
      let z := if sampling && training then pre.map (fun r => gumbel_softmax r P.temperature)
               else pre.map softmax
      let sts := z.map straight_through_discretize
      let onehots := sts.map Prod.fst
      let words := sts.map Prod.snd
      let ins2 := onehots.map (encoderTokenFeedback P)
      let t := encoderLoop P gumbel_softmax training sampling n ins2 hxs2
      (z :: t.1, onehots :: t.2.1, words :: t.2.2)

/-- Transpose of the leading two axes of a stacked step-major tensor, as
torch.stack(...).permute(1, 0, 2) and torch.stack(...).t() produce, for a
batch of size B. -/
def stackPermute {α : Type _} (B : ℕ) (dflt : α) (L : List (List α)) : List (List α) :=
  (List.range B).map (fun b => L.map (fun row => row.getD b dflt))

/-- Embedding of VAE.Encoder: the hidden state starts as the input x itself,
the recurrent input starts as a zero vector of dimension input_size, the loop
runs word_length steps, and the three collected step-major sequences are
permuted so the batch axis comes first and the sequence axis second.  The
gumbel softmax sampler is the external collaborator from base_model, taken as
a function parameter (it draws fresh relaxed samples). -/
noncomputable def Encoder (P : Params) (gumbel_softmax : List ℝ → ℝ → List ℝ)
    (training sampling : Bool) (x : List (List ℝ)) :
    List (List (List ℝ)) × List (List (List ℝ)) × List (List ℕ) :=
  let gru_input := List.replicate x.length (List.replicate P.input_size 0)
  let t := encoderLoop P gumbel_softmax training sampling P.word_length gru_input x
  (stackPermute x.length [] t.2.1, stackPermute x.length [] t.1, stackPermute x.length 0 t.2.2)

/-- Generic-sampler form of the encoder loop used in proofs: the per-row
sampling function is abstracted. -/
noncomputable def encoderLoopW (P : Params) (samp : List ℝ → List ℝ) :
    ℕ → List (List ℝ) → List (List ℝ) →
      List (List (List ℝ)) × List (List (List ℝ)) × List (List ℕ)
  | 0, _, _ => ([], [], [])
  | n + 1, ins, hxs =>
      let hxs2 := List.zipWith P.encoder_gru ins hxs
      let z := (hxs2.map (linApply P.hidden_to_token)).map samp
      let sts := z.map straight_through_discretize
      let onehots := sts.map Prod.fst
      let words := sts.map Prod.snd
      let ins2 := onehots.map (encoderTokenFeedback P)
      let t := encoderLoopW P samp n ins2 hxs2
      (z :: t.1, onehots :: t.2.1, words :: t.2.2)

/-- Per-example encoder recursion with an abstract per-row sampler: one word
position per recursion level, threading the recurrent input and hidden state
of a single batch element. -/
noncomputable def encodeSingleSteps (P : Params) (samp : List ℝ → List ℝ) :
    ℕ → List ℝ → List ℝ → List (List ℝ) × List (List ℝ) × List ℕ
  | 0, _, _ => ([], [], [])
  | n + 1, inp, h =>
      let h2 := P.encoder_gru inp h
      let z := samp (linApply P.hidden_to_token h2)
      let st := straight_through_discretize z
      let t := encodeSingleSteps P samp n (encoderTokenFeedback P st.1) h2
      (z :: t.1, st.1 :: t.2.1, st.2 :: t.2.2)

/-- Per-example encoding as the spec describes the algorithm: the hidden state
is initialized to the input vector itself, the recurrent input to a zero
vector of dimension input_size; at each of the word_length steps the cell
advances, the hidden state is projected to vocabulary logits, a relaxed
categorical sample at the configured temperature is drawn when in training
mode with sampling enabled and a plain softmax is taken otherwise, the sample
is discretized by the straight-through contract, and the embedded one-hot
becomes the next recurrent input; the per-step relaxed samples, one-hot tokens
and symbol indices are collected in step order. -/
noncomputable def encodeSingle (P : Params) (gumbel_softmax : List ℝ → ℝ → List ℝ)
    (training sampling : Bool) (v : List ℝ) :
    List (List ℝ) × List (List ℝ) × List ℕ :=
  encodeSingleSteps P
    (fun r => if sampling && training then gumbel_softmax r P.temperature else softmax r)
    P.word_length (List.replicate P.input_size 0) v

/-- Embedding of VAE.reparameterize at the decoder call site (a batch of mean
and logvar row vectors): in training mode the result is eps * exp(0.5*logvar)
+ mu elementwise, where eps is the fresh standard normal draw supplied as a
noise oracle; in evaluation mode the result is mu itself. -/
noncomputable def reparameterize (training : Bool) (eps mu logvar : List (List ℝ)) :
    List (List ℝ) :=
  if training then
    List.zipWith (fun er ml =>
      List.zipWith (fun e q => e * Real.exp (0.5 * q.2) + q.1) er (ml.1.zip ml.2))
      eps (mu.zip logvar)
  else mu

/-- Embedding of VAE.Decoder: every step of the token sequence is projected to
hidden space by the embedding head before the recurrence, the hidden state is
initialized to zero, the decoder GRU advances over the word_length steps in
order, and the mean and logvar heads are applied to the final hidden state,
from which the reconstruction is drawn by reparameterize. -/
noncomputable def Decoder (P : Params) (training : Bool) (noise : List (List ℝ))
    (z : List (List (List ℝ))) : List (List ℝ) × List (List ℝ) × List (List ℝ) :=
  let z_embeddings := z.map (fun seq => seq.map (decoderTokenEmbed P))
  let hx0 := List.replicate z.length (List.replicate P.input_size 0)
  let hx := (List.range P.word_length).foldl
    (fun hs n => List.zipWith P.decoder_gru (z_embeddings.map (fun e => e.getD n [])) hs) hx0
  let output_mean := hx.map (linApply P.output_mean)
  let output_logvar := hx.map (linApply P.output_logvar)
  (reparameterize training noise output_mean output_logvar, output_mean, output_logvar)

/-- Final hidden state of the decoder on one example: fold of the decoder GRU
over the embedded token sequence, from a zero initial hidden state. -/
noncomputable def decodeFinalHidden (P : Params) (seq : List (List ℝ)) : List ℝ :=
  (seq.map (decoderTokenEmbed P)).foldl (fun h e => P.decoder_gru e h)
    (List.replicate P.input_size 0)

/-- Embedding of VAE.forward: encode (with sampling enabled by default),
decode the one-hot token sequence, and return the 4-tuple
(reconstruction, one-hot tokens, relaxed samples, symbol indices). -/
noncomputable def forward (P : Params) (gumbel_softmax : List ℝ → ℝ → List ℝ)
    (training : Bool) (noise : List (List ℝ)) (input : List (List ℝ)) :
    List (List ℝ) × List (List (List ℝ)) × List (List (List ℝ)) × List (List ℕ) :=
  let e := Encoder P gumbel_softmax training true input
  let d := Decoder P training noise e.1
  (d.1, e.1, e.2.1, e.2.2)

/-- Dynamic (python level) view of a tensor value, used to model tuple
unpacking in the training driver. -/
inductive PyVal where
  | t2R : List (List ℝ) → PyVal
  | t3 : List (List (List ℝ)) → PyVal
  | t2N : List (List ℕ) → PyVal

/-- The tuple returned by model(data), as the python runtime sees it: a list
of values in return order. -/
noncomputable def forwardValues (P : Params) (gumbel_softmax : List ℝ → ℝ → List ℝ)
    (training : Bool) (noise : List (List ℝ)) (input : List (List ℝ)) : List PyVal :=
  let f := forward P gumbel_softmax training noise input
  [PyVal.t2R f.1, PyVal.t3 f.2.1, PyVal.t3 f.2.2.1, PyVal.t2N f.2.2.2]

/-- Per-batch step of the shipped train driver: it destructures the result of
model(data) into five names (recon, one_hot_token, logits, message, _) and, on
success, calls elbo with the one_hot_token component as the logits argument;
a failed unpacking (the python ValueError) is modelled as none. -/
noncomputable def trainBatchStep (P : Params) (gumbel_softmax : List ℝ → ℝ → List ℝ)
    (training : Bool) (noise : List (List ℝ)) (data : List (List ℝ)) (beta : ℝ) :
    Option (ℝ × ℝ × ℝ) :=
  match forwardValues P gumbel_softmax training noise data with
  | [PyVal.t2R recon, PyVal.t3 one_hot_token, PyVal.t3 _logits, PyVal.t2N _message, _] =>
      some (elbo P.dictionary_size data recon one_hot_token beta)
  | _ => none

/- ------------------------------------------------------------------ -/
/- List helper lemmas -/

theorem zipWith_sq_comm : ∀ (a b : List ℝ),
    List.zipWith (fun x y => (x - y) ^ 2) a b = List.zipWith (fun x y => (x - y) ^ 2) b a := by
  intro a
  induction a with
  | nil => intro b; cases b <;> simp
  | cons x xs ih =>
      intro b
      cases b with
      | nil => simp
      | cons y ys => simp [ih ys]; ring

theorem mseLossSum_comm (a b : List (List ℝ)) : mseLossSum a b = mseLossSum b a := by
  unfold mseLossSum
  induction a generalizing b with
  | nil => cases b <;> simp
  | cons x xs ih =>
      cases b with
      | nil => simp
      | cons y ys => simp [ih ys, zipWith_sq_comm x y]

theorem zipWith_replicate_len {α β γ : Type _} (f : α → β → γ) (c : β) :
    ∀ (l : List α), List.zipWith f l (List.replicate l.length c) = l.map (fun x => f x c) := by
  intro l
  induction l with
  | nil => simp
  | cons x xs ih => simp [List.replicate_succ, ih]

theorem sum_exp_pos (l : List ℝ) (hl : l ≠ []) : 0 < (l.map Real.exp).sum := by
  cases l with
  | nil => exact absurd rfl hl
  | cons x xs =>
      simp only [List.map_cons, List.sum_cons]
      have h1 : (0:ℝ) ≤ (xs.map Real.exp).sum := by
        apply List.sum_nonneg
        intro y hy
        simp only [List.mem_map] at hy
        obtain ⟨z, _, rfl⟩ := hy
        exact (Real.exp_pos z).le
      have h2 := Real.exp_pos x
      linarith

theorem logSoftmax_replicate (d : ℕ) (hd : 0 < d) (c : ℝ) :
    logSoftmax (List.replicate d c) = List.replicate d (-Real.log d) := by
  simp only [logSoftmax, List.map_replicate, List.sum_replicate, nsmul_eq_mul]
  congr 1
  rw [Real.log_mul (Nat.cast_ne_zero.mpr hd.ne') (Real.exp_ne_zero c), Real.log_exp]
  ring

/-- Key bridge: the torch KL between OneHotCategorical(logits = a) and the
prior OneHotCategorical(logits = log(1/d) everywhere) is the classical KL
divergence of softmax(a) against the uniform categorical over d symbols. -/
theorem klCatLogits_uniform (d : ℕ) (hd : 0 < d) (a : List ℝ) (ha : a.length = d) :
    klCatLogits a (List.replicate d (Real.log (1 / (d : ℝ))))
      = klDiv (softmax a) (uniformProbs d) := by
  have hne : a ≠ [] := by
    intro h
    subst h
    simp at ha
    omega
  have hS : 0 < (a.map Real.exp).sum := sum_exp_pos a hne
  have hd0 : ((d:ℕ) : ℝ) ≠ 0 := Nat.cast_ne_zero.mpr hd.ne'
  unfold klCatLogits klDiv uniformProbs
  rw [logSoftmax_replicate d hd _]
  have hlen1 : (logSoftmax a).length = d := by simpa [logSoftmax] using ha
  have hlen2 : (softmax a).length = d := by simpa [softmax] using ha
  rw [show List.replicate d (-Real.log d) = List.replicate (logSoftmax a).length (-Real.log d) by
        rw [hlen1],
      zipWith_replicate_len,
      show List.replicate d (1 / (d:ℝ)) = List.replicate (softmax a).length (1 / (d:ℝ)) by
        rw [hlen2],
      zipWith_replicate_len]
  simp only [softmax, logSoftmax, List.map_map, List.zipWith_map_left, List.zipWith_map_right,
    List.zipWith_same, Function.comp]
  refine congrArg List.sum (List.map_congr_left ?_)
  intro x _
  simp only [Function.comp_apply]
  have h1 : Real.exp x / (a.map Real.exp).sum ≠ 0 :=
    div_ne_zero (Real.exp_ne_zero x) hS.ne'
  have h2 : (1 : ℝ) / (d:ℝ) ≠ 0 := one_div_ne_zero hd0
  rw [Real.log_div h1 h2, Real.log_div (Real.exp_ne_zero x) hS.ne', Real.log_exp, one_div,
    Real.log_inv]

/- ------------------------------------------------------------------ -/
/- Claims C2, C4, C8 -/

/-- C2: elbo returns a triple (total, recon term, kld term) with
total = recon term + beta * kld term, and when beta = 0 the total equals the
reconstruction term exactly, for every input, reconstruction, relaxed
distribution sequence and scalar beta. -/
theorem C2_elbo_total_is_recon_plus_beta_kld (d : ℕ) (inputs recon : List (List ℝ))
    (logits : List (List (List ℝ))) (beta : ℝ) :
    elbo d inputs recon logits beta
      = (compute_recontruct_loss inputs recon "mse" + beta * compute_KLD_loss d logits,
         compute_recontruct_loss inputs recon "mse", compute_KLD_loss d logits)
    ∧ (elbo d inputs recon logits beta).1
        = (elbo d inputs recon logits beta).2.1 + beta * (elbo d inputs recon logits beta).2.2
    ∧ (beta = 0 → (elbo d inputs recon logits beta).1 = (elbo d inputs recon logits beta).2.1) := by
  refine ⟨rfl, rfl, ?_⟩
  intro h
  simp [elbo, h]

/-- Witness for C2 at a concrete input with beta = 0. -/
theorem C2_elbo_total_is_recon_plus_beta_kld_witness :
    (elbo 2 [[(1:ℝ)]] [[(0:ℝ)]] [[[(1:ℝ), 0]]] 0).1
      = (elbo 2 [[(1:ℝ)]] [[(0:ℝ)]] [[[(1:ℝ), 0]]] 0).2.1 :=
  (C2_elbo_total_is_recon_plus_beta_kld 2 [[(1:ℝ)]] [[(0:ℝ)]] [[[(1:ℝ), 0]]] 0).2.2 rfl

/-- C4: under the default mse selector, for every non-empty batch the
reconstruction term of elbo is the elementwise squared error between inputs and
reconstruction summed over batch and feature axes, divided by the batch size. -/
theorem C4_recon_term_is_sum_sq_over_batch (d : ℕ) (inputs recon : List (List ℝ))
    (logits : List (List (List ℝ))) (beta : ℝ) (hne : 0 < inputs.length) :
    (elbo d inputs recon logits beta).2.1 = specReconLoss inputs recon := by
  show compute_recontruct_loss inputs recon "mse" = specReconLoss inputs recon
  unfold compute_recontruct_loss specReconLoss
  rw [if_pos rfl, mseLossSum_comm]
  rfl

/-- Witness for C4 at a concrete non-empty batch. -/
theorem C4_recon_term_is_sum_sq_over_batch_witness :
    0 < ([[(1:ℝ)]] : List (List ℝ)).length
    ∧ (elbo 1 [[(1:ℝ)]] [[(0:ℝ)]] [] 5).2.1 = specReconLoss [[(1:ℝ)]] [[(0:ℝ)]] :=
  ⟨by simp, C4_recon_term_is_sum_sq_over_batch 1 [[(1:ℝ)]] [[(0:ℝ)]] [] 5 (by simp)⟩

/-- C3: if every step of the relaxed distribution sequence equals the uniform
vector over d symbols, the KL term computed by compute_KLD_loss is zero. -/
theorem C3_kld_zero_on_uniform_steps (d : ℕ) (logits : List (List (List ℝ))) (hd : 0 < d)
    (hu : ∀ seq ∈ logits, ∀ step ∈ seq, step = List.replicate d (1 / (d : ℝ))) :
    compute_KLD_loss d logits = 0 := by
  have hd0 : ((d:ℕ) : ℝ) ≠ 0 := Nat.cast_ne_zero.mpr hd.ne'
  unfold compute_KLD_loss
  apply List.sum_eq_zero
  intro x hx
  simp only [List.mem_map] at hx
  obtain ⟨seq, hseq, rfl⟩ := hx
  apply List.sum_eq_zero
  intro y hy
  simp only [List.mem_map] at hy
  obtain ⟨step, hstep, rfl⟩ := hy
  rw [hu seq hseq step hstep, klCatLogits_uniform d hd _ (by simp)]
  have hsm : softmax (List.replicate d ((1:ℝ) / d)) = List.replicate d ((1:ℝ) / d) := by
    simp only [softmax, List.map_replicate, List.sum_replicate, nsmul_eq_mul]
    congr 1
    rw [eq_div_iff hd0]
    field_simp
    ring
  rw [hsm]
  unfold klDiv uniformProbs
  apply List.sum_eq_zero
  intro t ht
  rw [List.zipWith_replicate] at ht
  simp only [List.mem_replicate] at ht
  rw [ht.2, div_self (one_div_ne_zero hd0), Real.log_one, mul_zero]

/-- Witness for C3 at a concrete uniform sequence. -/
theorem C3_kld_zero_on_uniform_steps_witness :
    (0 < 2
      ∧ (∀ seq ∈ [[[(1:ℝ)/2, 1/2]]], ∀ step ∈ seq, step = List.replicate 2 (1 / ((2:ℕ) : ℝ))))
    ∧ compute_KLD_loss 2 [[[(1:ℝ)/2, 1/2]]] = 0 :=
  ⟨⟨by norm_num, by
      intro seq hseq step hstep
      simp only [List.mem_singleton] at hseq
      subst hseq
      simp only [List.mem_singleton] at hstep
      subst hstep
      norm_num [List.replicate]⟩,
   C3_kld_zero_on_uniform_steps 2 [[[(1:ℝ)/2, 1/2]]] (by norm_num) (by
      intro seq hseq step hstep
      simp only [List.mem_singleton] at hseq
      subst hseq
      simp only [List.mem_singleton] at hstep
      subst hstep
      norm_num [List.replicate])⟩

/-- Value of the code KL term at the one-hot relaxed distribution (1, 0)
with dictionary size 2: the relaxed values are consumed as logits, so the
categorical compared with the prior is softmax (1, 0), not (1, 0) itself. -/
theorem compute_KLD_at_onehot :
    compute_KLD_loss 2 [[[(1:ℝ), 0]]]
      = Real.exp 1 / (Real.exp 1 + 1) + Real.log 2 - Real.log (Real.exp 1 + 1) := by
  have hexp2 : Real.exp (Real.log 2) = 2 := Real.exp_log (by norm_num)
  have h12 : Real.exp (Real.log ((1:ℝ) / 2)) = 1 / 2 := Real.exp_log (by norm_num)
  have hlog12 : Real.log ((1:ℝ) / 2) = -Real.log 2 := by
    rw [one_div, Real.log_inv]
  have hE : (0:ℝ) < Real.exp 1 + 1 := by positivity
  unfold compute_KLD_loss klCatLogits softmax logSoftmax
  norm_num [List.replicate, h12, hlog12, Real.exp_neg, hexp2, Real.exp_zero, Real.log_one]
  field_simp
  ring

/-- Value of the claim level KL term at the same input: the relaxed vector
taken directly as categorical probabilities against the uniform prior. -/
theorem specKLD_at_onehot : specKLD 2 [[[(1:ℝ), 0]]] = Real.log 2 := by
  unfold specKLD klDiv uniformProbs
  norm_num [List.replicate]

/-- C1 counterexample: at the valid relaxed distribution (1, 0) over 2 symbols
(componentwise nonnegative, summing to 1), the KL term returned by elbo differs
from the KL divergence between the categorical distribution with those
probabilities and the uniform categorical, summed over steps and batch. -/
theorem C1_counterexample_kld_not_direct_kl :
    ((∀ p ∈ [(1:ℝ), 0], 0 ≤ p) ∧ ([(1:ℝ), 0]).sum = 1)
    ∧ (elbo 2 [[(0:ℝ)]] [[(0:ℝ)]] [[[(1:ℝ), 0]]] 1).2.2 ≠ specKLD 2 [[[(1:ℝ), 0]]] := by
  refine ⟨⟨?_, by norm_num⟩, ?_⟩
  · intro p hp
    simp only [List.mem_cons, List.mem_singleton] at hp
    rcases hp with h | h | h <;> simp_all
  · show compute_KLD_loss 2 [[[(1:ℝ), 0]]] ≠ specKLD 2 [[[(1:ℝ), 0]]]
    rw [compute_KLD_at_onehot, specKLD_at_onehot]
    have hE : (0:ℝ) < Real.exp 1 + 1 := by positivity
    have h1 : Real.exp 1 / (Real.exp 1 + 1) < 1 :=
      (div_lt_one hE).mpr (by linarith)
    have h2 : 1 < Real.log (Real.exp 1 + 1) := by
      have h := Real.log_lt_log (Real.exp_pos 1) (by linarith : Real.exp 1 < Real.exp 1 + 1)
      rwa [Real.log_exp] at h
    intro hEq
    have : Real.exp 1 / (Real.exp 1 + 1) = Real.log (Real.exp 1 + 1) := by linarith
    linarith

/-- C1 amended: for every well-shaped relaxed distribution sequence (each step
of length dictionary_size, componentwise nonnegative and summing to 1), the KL
term returned by elbo is the KL divergence between the per-step categorical
obtained by softmaxing the relaxed vector (the relaxed values are consumed as
logits) and the uniform categorical over dictionary_size symbols, summed over
the word axis and then over the batch axis, a plain sum with no averaging. -/
theorem C1_amended_kld_is_summed_kl_of_softmax (d : ℕ) (inputs recon : List (List ℝ))
    (logits : List (List (List ℝ))) (beta : ℝ) (hd : 0 < d)
    (hlen : ∀ seq ∈ logits, ∀ step ∈ seq, step.length = d)
    (hprob : ∀ seq ∈ logits, ∀ step ∈ seq, (∀ p ∈ step, 0 ≤ p) ∧ step.sum = 1) :
    (elbo d inputs recon logits beta).2.2
      = (logits.map (fun seq =>
          (seq.map (fun step => klDiv (softmax step) (uniformProbs d))).sum)).sum := by
  show compute_KLD_loss d logits = _
  unfold compute_KLD_loss
  refine congrArg List.sum (List.map_congr_left ?_)
  intro seq hseq
  refine congrArg List.sum (List.map_congr_left ?_)
  intro step hstep
  exact klCatLogits_uniform d hd step (hlen seq hseq step hstep)

/-- Witness for the amended C1 at a concrete valid input. -/
theorem C1_amended_kld_is_summed_kl_of_softmax_witness :
    (0 < 2
      ∧ (∀ seq ∈ [[[(1:ℝ), 0]]], ∀ step ∈ seq, step.length = 2)
      ∧ (∀ seq ∈ [[[(1:ℝ), 0]]], ∀ step ∈ seq, (∀ p ∈ step, 0 ≤ p) ∧ step.sum = 1))
    ∧ (elbo 2 [[(0:ℝ)]] [[(0:ℝ)]] [[[(1:ℝ), 0]]] 1).2.2
        = ([[[(1:ℝ), 0]]].map (fun seq =>
            (seq.map (fun step => klDiv (softmax step) (uniformProbs 2))).sum)).sum := by
  have hlen : ∀ seq ∈ [[[(1:ℝ), 0]]], ∀ step ∈ seq, step.length = 2 := by
    intro seq hseq step hstep
    simp only [List.mem_singleton] at hseq
    subst hseq
    simp only [List.mem_singleton] at hstep
    subst hstep
    rfl
  have hprob : ∀ seq ∈ [[[(1:ℝ), 0]]], ∀ step ∈ seq, (∀ p ∈ step, 0 ≤ p) ∧ step.sum = 1 := by
    intro seq hseq step hstep
    simp only [List.mem_singleton] at hseq
    subst hseq
    simp only [List.mem_singleton] at hstep
    subst hstep
    constructor
    · intro p hp
      simp only [List.mem_cons, List.mem_singleton] at hp
      rcases hp with h | h | h <;> simp_all
    · norm_num
  exact ⟨⟨by norm_num, hlen, hprob⟩,
    C1_amended_kld_is_summed_kl_of_softmax 2 [[(0:ℝ)]] [[(0:ℝ)]] [[[(1:ℝ), 0]]] 1
      (by norm_num) hlen hprob⟩

/-- C8: for every value of the loss selector string other than mse, including
arbitrary unrecognized strings, the reconstruction loss computation returns the
cross entropy branch (a value, not an error): there is no validation of the
selector. -/
theorem C8_unrecognized_selector_falls_back_to_bce (s : String) (hs : s ≠ "mse")
    (inputs recon : List (List ℝ)) :
    compute_recontruct_loss inputs recon s = bceLossSum recon inputs / (inputs.length : ℝ) := by
  unfold compute_recontruct_loss
  rw [if_neg hs]

/-- Witness for C8 with a concrete unrecognized selector string. -/
theorem C8_unrecognized_selector_falls_back_to_bce_witness :
    ("xent" ≠ "mse")
    ∧ compute_recontruct_loss [[(1:ℝ)]] [[(0:ℝ)]] "xent"
        = bceLossSum [[(0:ℝ)]] [[(1:ℝ)]] / (([[(1:ℝ)]] : List (List ℝ)).length : ℝ) :=
  ⟨by decide, C8_unrecognized_selector_falls_back_to_bce "xent" (by decide) [[(1:ℝ)]] [[(0:ℝ)]]⟩

theorem zipWith_zipWith_same {α β γ δ ε : Type _} (f : γ → δ → ε) (g : α → β → γ)
    (h : α → β → δ) :
    ∀ (l1 : List α) (l2 : List β),
      List.zipWith f (List.zipWith g l1 l2) (List.zipWith h l1 l2)
        = List.zipWith (fun a b => f (g a b) (h a b)) l1 l2 := by
  intro l1
  induction l1 with
  | nil => intro l2; simp
  | cons a as ih => intro l2; cases l2 <;> simp [ih]

theorem zipWith_absorb_right {α β γ δ : Type _} (f : α → γ → δ) (g : α → β → γ) :
    ∀ (l1 : List α) (l2 : List β),
      List.zipWith f l1 (List.zipWith g l1 l2)
        = List.zipWith (fun a b => f a (g a b)) l1 l2 := by
  intro l1
  induction l1 with
  | nil => intro l2; simp
  | cons a as ih => intro l2; cases l2 <;> simp [ih]

theorem zipWith_replicate_left {α β γ : Type _} (f : α → β → γ) (c : α) :
    ∀ (l : List β), List.zipWith f (List.replicate l.length c) l = l.map (fun x => f c x) := by
  intro l
  induction l with
  | nil => simp
  | cons x xs ih => simp [List.replicate_succ, ih]

theorem range_map_getD {α : Type _} (l : List α) (dflt : α) :
    (List.range l.length).map (fun s => l.getD s dflt) = l := by
  apply List.ext_getElem
  · simp
  · intro n h1 h2
    simp [List.getD_eq_getElem?_getD, List.getElem?_eq_getElem h2]

theorem range_map_getD_of_len {α : Type _} (l : List α) (dflt : α) (W : ℕ)
    (h : l.length = W) :
    (List.range W).map (fun s => l.getD s dflt) = l := by
  subst h
  exact range_map_getD l dflt

theorem stackPermute_map {α β : Type _} (x : List β) (W : ℕ) (g : ℕ → β → α) (dflt : α) :
    stackPermute x.length dflt ((List.range W).map (fun s => x.map (g s)))
      = x.map (fun v => (List.range W).map (fun s => g s v)) := by
  apply List.ext_getElem
  · simp [stackPermute]
  · intro n h1 h2
    have hx : n < x.length := by simpa using h2
    simp only [stackPermute, List.getElem_map, List.getElem_range, List.map_map]
    refine List.map_congr_left ?_
    intro s _
    simp [Function.comp, List.getD_eq_getElem?_getD, List.getElem?_map,
      List.getElem?_eq_getElem hx]

theorem encodeSingleSteps_length (P : Params) (samp : List ℝ → List ℝ) :
    ∀ (n : ℕ) (inp h : List ℝ),
      (encodeSingleSteps P samp n inp h).1.length = n
      ∧ (encodeSingleSteps P samp n inp h).2.1.length = n
      ∧ (encodeSingleSteps P samp n inp h).2.2.length = n := by
  intro n
  induction n with
  | zero => intro inp h; simp [encodeSingleSteps]
  | succ n ih =>
      intro inp h
      simp [encodeSingleSteps, ih]

theorem encoderLoop_eq_loopW (P : Params) (gumbel_softmax : List ℝ → ℝ → List ℝ)
    (training sampling : Bool) :
    ∀ (n : ℕ) (ins hxs : List (List ℝ)),
      encoderLoop P gumbel_softmax training sampling n ins hxs
        = encoderLoopW P
            (fun r => if sampling && training then gumbel_softmax r P.temperature else softmax r)
            n ins hxs := by
  intro n
  induction n with
  | zero => intro ins hxs; rfl
  | succ n ih =>
      intro ins hxs
      simp only [encoderLoop, encoderLoopW, ih]
      cases hc : sampling && training <;> simp [hc]

theorem encoderLoopW_spec (P : Params) (samp : List ℝ → List ℝ) :
    ∀ (n : ℕ) (ins hxs : List (List ℝ)), ins.length = hxs.length →
      encoderLoopW P samp n ins hxs
        = ((List.range n).map (fun s =>
              List.zipWith (fun i h => (encodeSingleSteps P samp n i h).1.getD s []) ins hxs),
           (List.range n).map (fun s =>
              List.zipWith (fun i h => (encodeSingleSteps P samp n i h).2.1.getD s []) ins hxs),
           (List.range n).map (fun s =>
              List.zipWith (fun i h => (encodeSingleSteps P samp n i h).2.2.getD s 0) ins hxs)) := by
  intro n
  induction n with
  | zero => intro ins hxs _; simp [encoderLoopW]
  | succ n ih =>
      intro ins hxs h
      simp only [encoderLoopW, List.map_zipWith, List.map_map]
      rw [ih _ _ (by simp [List.length_zipWith])]
      simp only [zipWith_zipWith_same, List.range_succ_eq_map, List.map_cons, List.map_map]
      simp only [encodeSingleSteps, Function.comp_def, Nat.succ_eq_add_one,
        List.getD_cons_zero, List.getD_cons_succ]

theorem foldRange_zip (gru : List ℝ → List ℝ → List ℝ) :
    ∀ (idxs : List ℕ) (embs : List (List (List ℝ))) (hxs : List (List ℝ)),
      embs.length = hxs.length →
      idxs.foldl (fun hs n => List.zipWith gru (embs.map (fun e => e.getD n [])) hs) hxs
        = List.zipWith (fun e h => idxs.foldl (fun hh n => gru (e.getD n []) hh) h) embs hxs := by
  intro idxs
  induction idxs with
  | nil =>
      intro embs hxs h
      simp only [List.foldl_nil]
      symm
      induction embs generalizing hxs with
      | nil => cases hxs <;> simp_all
      | cons e es ihe => cases hxs <;> simp_all
  | cons n0 ns ih =>
      intro embs hxs h
      simp only [List.foldl_cons]
      rw [ih embs _ (by simp [List.length_zipWith, h]), List.zipWith_map_left,
        zipWith_absorb_right]

/-- C5: the batch encoder equals the per-example spec algorithm mapped over
the batch, with the collected sequences batch-major: for every batch element v
the hidden state starts at v itself, the recurrent input starts at a zero
vector of dimension input_size, each of the word_length steps advances the
cell, projects to vocabulary logits, draws the relaxed sample at the
configured temperature in training mode with sampling enabled (plain softmax
otherwise), discretizes by the straight-through contract and feeds the
embedded one-hot back as next input; the returned one-hot, relaxed and index
sequences have the batch axis first and the sequence axis second. -/
theorem C5_encoder_refines_per_example (P : Params) (gumbel_softmax : List ℝ → ℝ → List ℝ)
    (training sampling : Bool) (x : List (List ℝ)) :
    Encoder P gumbel_softmax training sampling x
      = (x.map (fun v => (encodeSingle P gumbel_softmax training sampling v).2.1),
         x.map (fun v => (encodeSingle P gumbel_softmax training sampling v).1),
         x.map (fun v => (encodeSingle P gumbel_softmax training sampling v).2.2)) := by
  simp only [Encoder, encodeSingle]
  rw [encoderLoop_eq_loopW,
    encoderLoopW_spec P _ P.word_length _ x (by simp)]
  simp only [zipWith_replicate_left]
  rw [stackPermute_map, stackPermute_map, stackPermute_map]
  refine Prod.ext ?_ (Prod.ext ?_ ?_)
  · refine List.map_congr_left ?_
    intro v _
    exact range_map_getD_of_len _ _ _ ((encodeSingleSteps_length P _ P.word_length _ v).2.1)
  · refine List.map_congr_left ?_
    intro v _
    exact range_map_getD_of_len _ _ _ ((encodeSingleSteps_length P _ P.word_length _ v).1)
  · refine List.map_congr_left ?_
    intro v _
    exact range_map_getD_of_len _ _ _ ((encodeSingleSteps_length P _ P.word_length _ v).2.2)

/-- C7: the batch decoder equals, per example, embedding every step of the
token sequence first, folding the decoder GRU over the embedded steps in order
from a zero hidden state, and applying the mean and logvar heads to the final
hidden state only, with the reconstruction drawn from those by the
reparameterization contract; intermediate hidden states do not appear in the
result. -/
theorem C7_decoder_uses_only_final_hidden (P : Params) (training : Bool)
    (noise : List (List ℝ)) (z : List (List (List ℝ)))
    (hz : ∀ seq ∈ z, seq.length = P.word_length) :
    Decoder P training noise z
      = (reparameterize training noise
           (z.map (fun seq => linApply P.output_mean (decodeFinalHidden P seq)))
           (z.map (fun seq => linApply P.output_logvar (decodeFinalHidden P seq))),
         z.map (fun seq => linApply P.output_mean (decodeFinalHidden P seq)),
         z.map (fun seq => linApply P.output_logvar (decodeFinalHidden P seq))) := by
  have hx : (List.range P.word_length).foldl
      (fun hs n => List.zipWith P.decoder_gru
        ((z.map (fun seq => seq.map (decoderTokenEmbed P))).map (fun e => e.getD n [])) hs)
      (List.replicate z.length (List.replicate P.input_size 0))
      = z.map (decodeFinalHidden P) := by
    rw [foldRange_zip P.decoder_gru _ _ _ (by simp), List.zipWith_map_left,
      zipWith_replicate_len]
    refine List.map_congr_left ?_
    intro seq hseq
    unfold decodeFinalHidden
    conv_rhs =>
      rw [← range_map_getD_of_len (seq.map (decoderTokenEmbed P)) [] P.word_length
          (by simp [hz seq hseq]),
        List.foldl_map]
  simp only [Decoder]
  rw [hx]
  simp only [List.map_map, Function.comp_def]

/-- Concrete model parameters used by witnesses: input_size 1, word_length 1,
dictionary_size 2, temperature 1, additive recurrence functions and all-ones
linear heads. -/
noncomputable def Pw : Params :=
  ⟨1, 1, 2, 1, fun i h => List.zipWith (fun a b => a + b) i h,
   ⟨[[1], [1]], [0, 0]⟩, ⟨[[1, 1]], [0]⟩,
   fun i h => List.zipWith (fun a b => a + b) i h, ⟨[[1]], [0]⟩, ⟨[[1]], [0]⟩⟩

/-- Witness for C7 at a concrete token sequence and model. -/
theorem C7_decoder_uses_only_final_hidden_witness :
    (∀ seq ∈ ([[[(1:ℝ), 0]]] : List (List (List ℝ))), seq.length = Pw.word_length)
    ∧ Decoder Pw false [] [[[(1:ℝ), 0]]]
        = (reparameterize false []
             ([[[(1:ℝ), 0]]].map (fun seq => linApply Pw.output_mean (decodeFinalHidden Pw seq)))
             ([[[(1:ℝ), 0]]].map (fun seq => linApply Pw.output_logvar (decodeFinalHidden Pw seq))),
           [[[(1:ℝ), 0]]].map (fun seq => linApply Pw.output_mean (decodeFinalHidden Pw seq)),
           [[[(1:ℝ), 0]]].map (fun seq => linApply Pw.output_logvar (decodeFinalHidden Pw seq))) := by
  have hz : ∀ seq ∈ ([[[(1:ℝ), 0]]] : List (List (List ℝ))), seq.length = Pw.word_length := by
    intro seq h
    simp only [List.mem_singleton] at h
    subst h
    rfl
  exact ⟨hz, C7_decoder_uses_only_final_hidden Pw false [] [[[(1:ℝ), 0]]] hz⟩

/-- C6: the reparameterized sampler returns mean + exp(0.5 * logvar) * noise
elementwise in training mode, returns exactly the mean in evaluation mode, and
in evaluation mode is independent of the noise draw, so two evaluation-mode
calls with identical mean and logvar yield identical output. -/
theorem C6_reparameterize_formula_and_eval_determinism (eps mu logvar : List (List ℝ)) :
    reparameterize true eps mu logvar
      = List.zipWith (fun er ml =>
          List.zipWith (fun e q => q.1 + Real.exp (0.5 * q.2) * e) er (ml.1.zip ml.2))
          eps (mu.zip logvar)
    ∧ reparameterize false eps mu logvar = mu
    ∧ ∀ eps2, reparameterize false eps2 mu logvar = reparameterize false eps mu logvar := by
  refine ⟨?_, rfl, fun eps2 => rfl⟩
  have h : (fun (e : ℝ) (q : ℝ × ℝ) => e * Real.exp (0.5 * q.2) + q.1)
      = fun e q => q.1 + Real.exp (0.5 * q.2) * e := by
    funext e q
    ring
  simp only [reparameterize, if_true, h]

/-- C9: the shipped training driver fails on every batch: model(data) returns
a 4-tuple while the driver unpacks five names, so the per-batch step is the
modelled unpacking error (none); the driver would, on a successful unpacking,
pass the one-hot token component as the logits argument of elbo, but the
unpacking never succeeds. -/
theorem C9_train_driver_unpacking_fails (P : Params)
    (gumbel_softmax : List ℝ → ℝ → List ℝ) (training : Bool) (noise : List (List ℝ))
    (data : List (List ℝ)) (beta : ℝ) :
    trainBatchStep P gumbel_softmax training noise data beta = none
    ∧ (forwardValues P gumbel_softmax training noise data).length = 4 :=
  ⟨rfl, rfl⟩

/-- C10: the encoder feedback projection and the decoder embedding head are
the same token_to_hidden parameter set: they agree on every token, and after
an update replacing token_to_hidden both the encoder use site and the decoder
use site observe the new parameters. -/
theorem C10_token_to_hidden_shared (P : Params) (L : Linear) (t : List ℝ) :
    encoderTokenFeedback P t = decoderTokenEmbed P t
    ∧ (setTokenToHidden P L).token_to_hidden = L
    ∧ encoderTokenFeedback (setTokenToHidden P L) t = linApply L t
    ∧ decoderTokenEmbed (setTokenToHidden P L) t = linApply L t :=
  ⟨rfl, rfl, rfl, rfl⟩

end VAELang
